import Mathlib

/-!
# Verification of the simple-icons CLI core against its specification

This file gives a shallow embedding, in Lean 4, of the core logic of
`src/simple_icons_cli/main.py`: the icon resolver (exact match followed by a
`rapidfuzz`-style edit-distance ratio match with threshold 60), the hex-color
inversion, the root-opacity SVG edit, the output-format policy, the default
target-path computation, and the `.icns` multi-resolution staging procedure.
Each definition mirrors the corresponding Python code; theorems at the end of
the file settle the frozen claims about that code.
-/

namespace SimpleIcons

/-- Character list abbreviation used for the text-processing models. -/
abbrev Chars := List Char

/-! ## Resolver (`resolve_icon`, lines 91-112)

`resolve_icon` first scans for a record whose slug equals the query verbatim
and otherwise runs `rapidfuzz.process.extractOne(query, slugs, scorer=fuzz.ratio)`
with acceptance threshold `score >= 60`.  `fuzz.ratio` is the normalized indel
similarity `100 * (|a| + |b| - dist)/(|a| + |b|)` where `dist` is the indel
distance, i.e. `|a| + |b| - 2 * lcs a b`; so the ratio is
`200 * lcs a b / (|a| + |b|)` (and 100 when both strings are empty). -/

/-- An icon record of the catalog (`data.json` entries); only the fields the
claims touch are modelled. -/
structure IconRecord where
  title : String
  slug : String
  hex : String
deriving DecidableEq, Repr

/-- Helper for `lcsLen`: one row of the longest-common-subsequence recursion,
structured so that both recursions are structural (and hence kernel-reducible).
`f` is `lcsLen as` for the tail `as` of the first list. -/
def lcsRow (a : Char) (f : Chars → Nat) : Chars → Nat
  | [] => 0
  | b :: bs => if a = b then f bs + 1 else max (f (b :: bs)) (lcsRow a f bs)

/-- Length of a longest common subsequence of two character lists (used to
express the `rapidfuzz` indel ratio). -/
def lcsLen : Chars → Chars → Nat
  | [], _ => 0
  | a :: as, l2 => lcsRow a (lcsLen as) l2

/-- The usual textbook recursion for `lcsLen`, holding definitionally. -/
lemma lcsLen_cons_cons (a b : Char) (as bs : Chars) :
    lcsLen (a :: as) (b :: bs) =
      if a = b then lcsLen as bs + 1 else max (lcsLen as (b :: bs)) (lcsLen (a :: as) bs) := rfl

/-- `fuzz.ratio`: normalized indel similarity on a 0-100 scale, as an exact
rational. -/
def fuzzRatio (a b : String) : ℚ :=
  if a.data.length + b.data.length = 0 then 100
  else (200 * lcsLen a.data b.data : ℚ) / (a.data.length + b.data.length : ℚ)

/-- One step of the `extractOne` scan: replace the incumbent best candidate
only when the new score is strictly larger. -/
def extractStep (q : String) (best : Option (String × ℚ)) (s : String) : Option (String × ℚ) :=
  match best with
  | none => some (s, fuzzRatio q s)
  | some (bs, bsc) => if fuzzRatio q s > bsc then some (s, fuzzRatio q s) else some (bs, bsc)

/-- `rapidfuzz.process.extractOne(query, slugs, scorer=fuzz.ratio)`: best slug
with its score, scanning left to right and replacing the incumbent only on a
strictly larger score; `none` exactly on an empty candidate list. -/
def extractOne (q : String) (slugs : List String) : Option (String × ℚ) :=
  slugs.foldl (extractStep q) none

/-- `resolve_icon`, with the fuzzy acceptance threshold (60 in the source) kept
as a parameter so that threshold-independence can be stated. -/
def resolve_iconT (threshold : ℚ) (query : String) (icons : List IconRecord) : Option IconRecord :=
  match icons.find? (fun i => i.slug == query) with
  | some i => some i
  | none =>
    match extractOne query (icons.map (fun i => i.slug)) with
    | some (bestSlug, score) =>
        if score ≥ threshold then icons.find? (fun i => i.slug == bestSlug) else none
    | none => none

/-- `resolve_icon` exactly as in the source: threshold 60. -/
def resolve_icon (query : String) (icons : List IconRecord) : Option IconRecord :=
  resolve_iconT 60 query icons

lemma extractOne_aux (q : String) :
    ∀ (l : List String) (acc : Option (String × ℚ)),
      l.foldl (extractStep q) acc = acc
      ∨ ∃ t ∈ l, l.foldl (extractStep q) acc = some (t, fuzzRatio q t) := by
  intro l
  induction l with
  | nil => intro _; exact Or.inl rfl
  | cons a l ih =>
    intro acc
    have hfold : (a :: l).foldl (extractStep q) acc = l.foldl (extractStep q) (extractStep q acc a) :=
      rfl
    rcases ih (extractStep q acc a) with h1 | ⟨t, ht, h1⟩
    · match hacc : acc with
      | none =>
          refine Or.inr ⟨a, List.mem_cons_self a l, ?_⟩
          rw [hfold, h1]; rfl
      | some (bs, bsc) =>
          by_cases hgt : fuzzRatio q a > bsc
          · refine Or.inr ⟨a, List.mem_cons_self a l, ?_⟩
            rw [hfold, h1, extractStep, if_pos hgt]
          · refine Or.inl ?_
            rw [hfold, h1, extractStep, if_neg hgt]
    · exact Or.inr ⟨t, List.mem_cons_of_mem a ht, by rw [hfold, h1]⟩

lemma extractOne_mem (q : String) (slugs : List String) (s : String) (sc : ℚ)
    (h : extractOne q slugs = some (s, sc)) : s ∈ slugs ∧ sc = fuzzRatio q s := by
  rcases extractOne_aux q slugs none with h0 | ⟨t, ht, h0⟩
  · rw [extractOne, h0] at h; exact absurd h (by simp)
  · rw [extractOne, h0] at h
    rcases h with ⟨⟩
    exact ⟨ht, rfl⟩

lemma resolve_iconT_exact (threshold : ℚ) (query : String) (icons : List IconRecord)
    (r : IconRecord) (h : icons.find? (fun i => i.slug == query) = some r) :
    resolve_iconT threshold query icons = some r := by
  rw [resolve_iconT, h]

lemma resolve_icon_below_threshold (query : String) (icons : List IconRecord)
    (hex : icons.find? (fun i => i.slug == query) = none)
    (hlow : ∀ i ∈ icons, fuzzRatio query i.slug < 60) :
    resolve_icon query icons = none := by
  rw [resolve_icon, resolve_iconT, hex]
  match hone : extractOne query (icons.map (fun i => i.slug)) with
  | none => simp only [hone]
  | some (bestSlug, score) =>
    obtain ⟨hmem, hsc⟩ := extractOne_mem query _ bestSlug score hone
    obtain ⟨i, hi, hslug⟩ := List.mem_map.mp hmem
    have hlt : score < 60 := by rw [hsc, ← hslug]; exact hlow i hi
    simp only [hone]
    rw [if_neg (not_le.mpr hlt)]

/-- `List.find?` returns the designated element when it is the unique element
satisfying the predicate. -/
lemma find?_of_mem_uniq {α : Type} (p : α → Bool) (l : List α) (r : α)
    (hr : r ∈ l) (hp : p r = true) (huniq : ∀ i ∈ l, p i = true → i = r) :
    l.find? p = some r := by
  induction l with
  | nil => exact absurd hr (List.not_mem_nil r)
  | cons a l ih =>
    by_cases ha : p a = true
    · have : a = r := huniq a (List.mem_cons_self a l) ha
      subst this
      simp [List.find?, ha]
    · have hne : a ≠ r := fun h => ha (h ▸ hp)
      have hr' : r ∈ l := by
        rcases List.mem_cons.mp hr with h | h
        · exact absurd h.symm hne
        · exact h
      have hfind := ih hr' (fun i hi hpi => huniq i (List.mem_cons_of_mem a hi) hpi)
      have ha' : p a = false := by
        cases h : p a
        · rfl
        · exact absurd h ha
      simp [List.find?, ha', hfind]

/-! ## Claim theorems for the resolver -/

/-- C4: for every query and catalog, if some record's slug equals the query
verbatim (and slugs are unique, the catalog invariant), `resolve_icon` returns
that record as an exact match, for every fuzzy threshold — so the fuzzy step
never influences the result. -/
theorem C4_exact_match_first (threshold : ℚ) (query : String) (icons : List IconRecord)
    (r : IconRecord) (hr : r ∈ icons) (hq : r.slug = query)
    (huniq : ∀ i ∈ icons, i.slug = query → i = r) :
    resolve_iconT threshold query icons = some r ∧ resolve_icon query icons = some r := by
  refine ⟨?_, ?_⟩ <;> refine resolve_iconT_exact _ query icons r ?_
  all_goals
  refine find?_of_mem_uniq (fun i => i.slug == query) icons r hr ?_ ?_
  · exact beq_iff_eq.mpr hq
  · intro i hi hpi
    exact huniq i hi (beq_iff_eq.mp hpi)

/-- Witness for C4: with slug `git` present, the query `git` resolves to that
record even under an absurdly high fuzzy threshold. -/
theorem C4_exact_match_first_witness :
    resolve_iconT 1000000 "git"
      [⟨"GitHub", "github", "181717"⟩, ⟨"Git", "git", "F05032"⟩] =
      some ⟨"Git", "git", "F05032"⟩ ∧
    resolve_icon "git"
      [⟨"GitHub", "github", "181717"⟩, ⟨"Git", "git", "F05032"⟩] =
      some ⟨"Git", "git", "F05032"⟩ :=
  C4_exact_match_first 1000000 "git" _ ⟨"Git", "git", "F05032"⟩
    (by decide) rfl (by decide)

/-- C5: when no slug matches the query exactly and every slug scores strictly
below 60, `resolve_icon` returns `none` (NotFound), never an arbitrary record. -/
theorem C5_below_threshold_not_found (query : String) (icons : List IconRecord)
    (hex : icons.find? (fun i => i.slug == query) = none)
    (hlow : ∀ i ∈ icons, fuzzRatio query i.slug < 60) :
    resolve_icon query icons = none :=
  resolve_icon_below_threshold query icons hex hlow

/-- Witness for C5: `zzzz` shares no characters with `github`, scores 0, and
resolution reports NotFound. -/
theorem C5_below_threshold_not_found_witness :
    resolve_icon "zzzz" [⟨"GitHub", "github", "181717"⟩] = none :=
  C5_below_threshold_not_found "zzzz" [⟨"GitHub", "github", "181717"⟩]
    (by decide) (by with_unfolding_all decide)

/-! ## Hex colors: Python `int(s, 16)` and `f"{v:06X}"` (download, lines 189-205)

The color-resolution step of `download` computes `hex_str` from the explicit
`--color` (with leading `#` stripped) or the record's default hex, and on
`--invert` evaluates `f"{0xFFFFFF ^ int(hex_str, 16):06X}"`.  `int(s, 16)`
accepts surrounding whitespace, an optional sign, an optional `0x`/`0X` prefix
(optionally followed by one underscore), and hex digits separated by single
underscores; on anything else it raises `ValueError`, which `download` does not
catch. -/

/-- Hex-digit test, as accepted by Python `int(·, 16)` digits. -/
def isHexDigit (c : Char) : Bool :=
  (48 ≤ c.toNat && c.toNat ≤ 57) || (97 ≤ c.toNat && c.toNat ≤ 102) ||
    (65 ≤ c.toNat && c.toNat ≤ 70)

/-- Value of a hex digit (meaningful only when `isHexDigit` holds). -/
def hexVal (c : Char) : Nat :=
  if 48 ≤ c.toNat && c.toNat ≤ 57 then c.toNat - 48
  else if 97 ≤ c.toNat then c.toNat - 87
  else c.toNat - 55

/-- Uppercase hex digit for a value below 16 (as format `X` produces). -/
def toHexDigit (m : Nat) : Char :=
  if m < 10 then Char.ofNat (48 + m) else Char.ofNat (55 + m)

/-- Parse the remaining digits of a hex literal, allowing single underscores
between digits (Python numeric-literal grammar); `acc` is the value parsed so
far. -/
def parseHexRun (acc : Nat) : Chars → Option Nat
  | [] => some acc
  | c :: rest =>
    if c = '_' then
      match rest with
      | [] => none
      | d :: rest' => if isHexDigit d then parseHexRun (acc * 16 + hexVal d) rest' else none
    else if isHexDigit c then parseHexRun (acc * 16 + hexVal c) rest
    else none

/-- Optional leading sign of a Python int literal. -/
def stripSign (l : Chars) : Int × Chars :=
  match l with
  | [] => (1, [])
  | c :: t => if c = '+' then (1, t) else if c = '-' then (-1, t) else (1, c :: t)

/-- Optional `0x`/`0X` prefix (with one optional underscore after it). -/
def strip0x (l : Chars) : Chars :=
  match l with
  | c0 :: c1 :: t =>
    if c0 = '0' && (c1 = 'x' || c1 = 'X') then
      match t with
      | '_' :: t' => t'
      | _ => t
    else l
  | _ => l

/-- `str.strip()`: drop whitespace from both ends. -/
def pyStripWs (l : Chars) : Chars :=
  ((l.dropWhile Char.isWhitespace).reverse.dropWhile Char.isWhitespace).reverse

/-- The part of `int(s, 16)` after whitespace and sign handling. -/
def pyParseBody (sg : Int) (l : Chars) : Option Int :=
  match strip0x l with
  | [] => none
  | c :: rest =>
    if isHexDigit c then (parseHexRun (hexVal c) rest).map (fun n => sg * Int.ofNat n)
    else none

/-- Python `int(s, 16)`: `some` value on the accepted grammar, `none` where
Python raises `ValueError`. -/
def pyIntHex (s : String) : Option Int :=
  pyParseBody (stripSign (pyStripWs s.data)).1 (stripSign (pyStripWs s.data)).2

/-- Hex digits of `n` (most significant first, no leading zeros, empty for 0);
the first argument is recursion fuel, taken `≥ n` so the result is fuel-
independent. -/
def hexDigitsAux : Nat → Nat → Chars
  | 0, _ => []
  | fuel + 1, n => if n = 0 then [] else hexDigitsAux fuel (n / 16) ++ [toHexDigit (n % 16)]

/-- Hex digits of `n`, most significant first (`['0']` for 0). -/
def hexDigitsNat (n : Nat) : Chars :=
  if n = 0 then ['0'] else hexDigitsAux n n

/-- Python `f"{n:06X}"` for a nonnegative value: uppercase hex, zero-padded on
the left to at least six characters. -/
def pyFormat06X (n : Nat) : String :=
  ⟨List.replicate (6 - (hexDigitsNat n).length) '0' ++ hexDigitsNat n⟩

/-- Python `f"{v:06X}"` for a possibly negative int: the sign counts towards
the width of six. -/
def pyFormatInt06X (v : Int) : String :=
  if v < 0 then ⟨'-' :: (List.replicate (5 - (hexDigitsNat v.natAbs).length) '0' ++ hexDigitsNat v.natAbs)⟩
  else pyFormat06X v.toNat

/-- One application of the inversion in `download` (lines 199-203): parse the
hex string, XOR with `0xFFFFFF`, re-encode with `f"{...:06X}"`; `none` models
the uncaught `ValueError` of `int(hex_str, 16)`. -/
def invertHexOnce (s : String) : Option String :=
  (pyIntHex s).map fun v => pyFormatInt06X ((16777215 : Int).xor v)

/-- A Python exception escaping the color-resolution step. -/
inductive ColorErr
  | valueError
deriving DecidableEq, Repr

/-- The color-resolution step of `download` (lines 189-205): from the optional
explicit color, the invert flag and the record's default hex, compute the
optional `target_hex` appended to the CDN URL, or an uncaught exception. -/
def resolveColor (color : Option String) (invert : Bool) (iconHex : String) :
    Except ColorErr (Option String) :=
  let colorTruthy := match color with
    | none => false
    | some s => !(s == "")
  if colorTruthy || invert then
    let hexStr : String := if colorTruthy then ⟨(color.getD "").data.dropWhile (fun c => c = '#')⟩
      else iconHex
    if invert then
      match pyIntHex hexStr with
      | some v => .ok (some (pyFormatInt06X ((16777215 : Int).xor v)))
      | none => .error .valueError
    else .ok (some hexStr)
  else .ok none

/-! ### Round-trip lemmas for hex parsing and formatting -/

lemma toHexDigit_good : ∀ m < 16, isHexDigit (toHexDigit m) = true := by decide

lemma hexVal_toHexDigit : ∀ m < 16, hexVal (toHexDigit m) = m := by decide

lemma hexDigitsAux_good : ∀ (f n : Nat), n ≤ f → ∀ c ∈ hexDigitsAux f n, isHexDigit c = true := by
  intro f
  induction f with
  | zero => intro n _ c hc; exact absurd hc (List.not_mem_nil c)
  | succ f ih =>
    intro n hn c hc
    rw [hexDigitsAux] at hc
    by_cases h0 : n = 0
    · rw [if_pos h0] at hc; exact absurd hc (List.not_mem_nil c)
    · rw [if_neg h0] at hc
      rcases List.mem_append.mp hc with h | h
      · have hlt : n / 16 < n := Nat.div_lt_self (Nat.pos_of_ne_zero h0) (by norm_num)
        exact ih (n / 16) (by omega) c h
      · rcases List.mem_singleton.mp h with rfl
        exact toHexDigit_good (n % 16) (Nat.mod_lt n (by norm_num))

lemma hexDigitsNat_good (n : Nat) : ∀ c ∈ hexDigitsNat n, isHexDigit c = true := by
  rw [hexDigitsNat]
  by_cases h0 : n = 0
  · rw [if_pos h0]; decide
  · rw [if_neg h0]; exact hexDigitsAux_good n n le_rfl

lemma hexDigitsNat_ne_nil (n : Nat) : hexDigitsNat n ≠ [] := by
  rw [hexDigitsNat]
  by_cases h0 : n = 0
  · rw [if_pos h0]; exact List.cons_ne_nil _ _
  · rw [if_neg h0]
    obtain ⟨f, rfl⟩ := Nat.exists_eq_succ_of_ne_zero h0
    rw [hexDigitsAux, if_neg h0]
    exact List.append_ne_nil_of_right_ne_nil _ (List.cons_ne_nil _ _)

/-- The accumulator step of hex parsing. -/
def hexStep (a : Nat) (c : Char) : Nat := a * 16 + hexVal c

lemma parseHexRun_all : ∀ (l : Chars) (acc : Nat), (∀ c ∈ l, isHexDigit c = true) →
    parseHexRun acc l = some (l.foldl hexStep acc) := by
  intro l
  induction l with
  | nil => intro acc _; rfl
  | cons c rest ih =>
    intro acc hall
    have hc : isHexDigit c = true := hall c (List.mem_cons_self c rest)
    have hcu : c ≠ '_' := by
      intro h; rw [h] at hc; exact absurd hc (by decide)
    rw [parseHexRun.eq_def]
    simp only [if_neg hcu, if_pos hc]
    exact ih (acc * 16 + hexVal c) (fun d hd => hall d (List.mem_cons_of_mem c hd))

lemma foldl_hexDigitsAux : ∀ (f n acc : Nat), n ≤ f →
    (hexDigitsAux f n).foldl hexStep acc = acc * 16 ^ (hexDigitsAux f n).length + n := by
  intro f
  induction f with
  | zero =>
    intro n acc hn
    have h0 : n = 0 := Nat.le_zero.mp hn
    subst h0
    simp [hexDigitsAux]
  | succ f ih =>
    intro n acc hn
    rw [hexDigitsAux]
    by_cases h0 : n = 0
    · subst h0; simp
    · rw [if_neg h0]
      have hlt : n / 16 < n := Nat.div_lt_self (Nat.pos_of_ne_zero h0) (by norm_num)
      have hrec := ih (n / 16) acc (by omega)
      rw [List.foldl_append, hrec]
      have hv : hexVal (toHexDigit (n % 16)) = n % 16 :=
        hexVal_toHexDigit (n % 16) (Nat.mod_lt n (by norm_num))
      have hdm : 16 * (n / 16) + n % 16 = n := Nat.div_add_mod n 16
      simp only [List.foldl_cons, List.foldl_nil, hexStep, hv,
        List.length_append, List.length_singleton, pow_succ]
      calc (acc * 16 ^ (hexDigitsAux f (n / 16)).length + n / 16) * 16 + n % 16
          = acc * (16 ^ (hexDigitsAux f (n / 16)).length * 16) + (16 * (n / 16) + n % 16) := by
            ring
        _ = acc * (16 ^ (hexDigitsAux f (n / 16)).length * 16) + n := by rw [hdm]

lemma foldl_hexDigitsNat (n : Nat) : (hexDigitsNat n).foldl hexStep 0 = n := by
  rw [hexDigitsNat]
  by_cases h0 : n = 0
  · subst h0; decide
  · rw [if_neg h0, foldl_hexDigitsAux n n 0 le_rfl]
    simp

lemma foldl_zeros (k : Nat) : (List.replicate k '0').foldl hexStep 0 = 0 := by
  induction k with
  | zero => rfl
  | succ k ih => simpa [List.replicate_succ, hexStep] using ih

lemma hex_not_ws (c : Char) (h : isHexDigit c = true) : c.isWhitespace = false := by
  cases hw : c.isWhitespace
  · rfl
  · exfalso
    have hcases : ((c = ' ' ∨ c = '\t') ∨ c = '\r') ∨ c = '\n' := by
      simpa [Char.isWhitespace] using hw
    rcases hcases with ((rfl | rfl) | rfl) | rfl <;> exact absurd h (by decide)

lemma hex_ne_special (c : Char) (h : isHexDigit c = true) :
    c ≠ '+' ∧ c ≠ '-' ∧ c ≠ '_' ∧ c ≠ 'x' ∧ c ≠ 'X' := by
  refine ⟨?_, ?_, ?_, ?_, ?_⟩ <;> · intro hc; rw [hc] at h; exact absurd h (by decide)

lemma dropWhile_eq_self_of {p : Char → Bool} {l : Chars} (h : ∀ c ∈ l, p c = false) :
    l.dropWhile p = l := by
  cases l with
  | nil => rfl
  | cons a t => simp [List.dropWhile_cons, h a (List.mem_cons_self a t)]

lemma pyStripWs_all_hex (l : Chars) (hall : ∀ c ∈ l, isHexDigit c = true) :
    pyStripWs l = l := by
  have hws : ∀ c ∈ l, Char.isWhitespace c = false := fun c hc => hex_not_ws c (hall c hc)
  rw [pyStripWs, dropWhile_eq_self_of hws,
    dropWhile_eq_self_of (fun c hc => hws c (List.mem_reverse.mp hc)), List.reverse_reverse]

lemma strip0x_all_hex (l : Chars) (hall : ∀ c ∈ l, isHexDigit c = true) :
    strip0x l = l := by
  match l with
  | [] => rfl
  | [c0] => rfl
  | c0 :: c1 :: t =>
    obtain ⟨_, _, _, hx, hX⟩ := hex_ne_special c1 (hall c1 (by simp))
    simp [strip0x, hx, hX]

lemma stripSign_no_sign (c : Char) (t : Chars) (hp : c ≠ '+') (hm : c ≠ '-') :
    stripSign (c :: t) = (1, c :: t) := by
  simp [stripSign, hp, hm]

/-- `int(·, 16)` on a nonempty all-hex-digit string: plain positional value. -/
lemma pyIntHex_all_hex (l : Chars) (hne : l ≠ []) (hall : ∀ c ∈ l, isHexDigit c = true) :
    pyIntHex ⟨l⟩ = some (Int.ofNat (l.foldl hexStep 0)) := by
  match l with
  | [] => exact absurd rfl hne
  | c :: rest =>
    have hc : isHexDigit c = true := hall c (List.mem_cons_self c rest)
    obtain ⟨hp, hm, _, _, _⟩ := hex_ne_special c hc
    have hdata : (String.mk (c :: rest)).data = c :: rest := rfl
    rw [pyIntHex, hdata, pyStripWs_all_hex _ hall, stripSign_no_sign c rest hp hm]
    simp only [pyParseBody, strip0x_all_hex _ hall, if_pos hc,
      parseHexRun_all rest (hexVal c) (fun d hd => hall d (List.mem_cons_of_mem c hd)),
      Option.map_some]
    have : rest.foldl hexStep (hexVal c) = (c :: rest).foldl hexStep 0 := by
      simp [List.foldl_cons, hexStep]
    rw [this]
    simp

/-- Parsing inverts formatting: `int(f"{n:06X}", 16) = n`. -/
lemma pyIntHex_pyFormat06X (n : Nat) : pyIntHex (pyFormat06X n) = some (Int.ofNat n) := by
  rw [pyFormat06X]
  have hne : List.replicate (6 - (hexDigitsNat n).length) '0' ++ hexDigitsNat n ≠ [] :=
    List.append_ne_nil_of_right_ne_nil _ (hexDigitsNat_ne_nil n)
  have hall : ∀ c ∈ List.replicate (6 - (hexDigitsNat n).length) '0' ++ hexDigitsNat n,
      isHexDigit c = true := by
    intro c hc
    rcases List.mem_append.mp hc with h | h
    · rw [List.eq_of_mem_replicate h]; decide
    · exact hexDigitsNat_good n c h
  rw [pyIntHex_all_hex _ hne hall, List.foldl_append, foldl_zeros, foldl_hexDigitsNat]

/-- `Int.xor` on two nonnegative values is `Nat.xor`. -/
lemma int_ofNat_xor (a b : Nat) : (Int.ofNat a).xor (Int.ofNat b) = Int.ofNat (a ^^^ b) := rfl

lemma pyFormatInt06X_ofNat (m : Nat) : pyFormatInt06X (Int.ofNat m) = pyFormat06X m := by
  rw [pyFormatInt06X, if_neg (by exact not_lt.mpr (Int.ofNat_nonneg m))]
  rfl

/-- One inversion step on the canonical encoding of `n`. -/
lemma invertHexOnce_format (n : Nat) :
    invertHexOnce (pyFormat06X n) = some (pyFormat06X (16777215 ^^^ n)) := by
  rw [invertHexOnce, pyIntHex_pyFormat06X]
  simp only [Option.map]
  rw [show (16777215 : Int) = Int.ofNat 16777215 from rfl, int_ofNat_xor, pyFormatInt06X_ofNat]

/-! ## Claim theorems for the color logic -/

/-- C6: color inversion is an involution: for every valid 24-bit value, XOR
with `0xFFFFFF` followed by re-encoding as a zero-padded uppercase 6-hex-digit
string, applied twice starting from the canonical encoding, returns the
original 6-digit encoding. -/
theorem C6_invert_involution (n : Nat) (h : n < 16777216) :
    (invertHexOnce (pyFormat06X n)).bind invertHexOnce = some (pyFormat06X n) := by
  simp [invertHexOnce_format, Nat.xor_cancel_left]

/-- Witness for C6 at the spec's own example `1DA1F2 → E25E0D → 1DA1F2`. -/
theorem C6_invert_involution_witness :
    (invertHexOnce (pyFormat06X 1942002)).bind invertHexOnce = some (pyFormat06X 1942002) :=
  C6_invert_involution 1942002 (by decide)

/-- C10, counterexample: the claim says any non-hexadecimal character in the
explicit color makes the inversion path raise; but `int(·, 16)` accepts the
`0x` prefix, so `--color 0xAB --invert` succeeds (producing `FFFF54`) even
though `x` is not a hex digit. -/
theorem C10_counterexample :
    resolveColor (some "0xAB") true "181717" = .ok (some "FFFF54") ∧
    "0xAB".data.any (fun c => !isHexDigit c) = true :=
  ⟨rfl, by decide⟩

/-- C10, amended: with invert set, an explicit color whose `#`-stripped text is
rejected by Python's `int(·, 16)` grammar (which also accepts whitespace, a
sign, a `0x`/`0X` prefix and underscores between digits) makes the
color-resolution step raise an uncaught `ValueError` instead of producing a
structured result. -/
theorem C10_invert_bad_color_raises (color iconHex : String)
    (hne : color ≠ "")
    (hbad : pyIntHex ⟨color.data.dropWhile (fun c => c = '#')⟩ = none) :
    resolveColor (some color) true iconHex = .error .valueError := by
  have hbe : (color == "") = false := beq_eq_false_iff_ne.mpr hne
  simp only [resolveColor, hbe, Bool.not_false, Bool.true_or, if_true, Option.getD_some, hbad]

/-- Witness for the amended C10: `--color red --invert` raises. -/
theorem C10_invert_bad_color_raises_witness :
    resolveColor (some "red") true "181717" = .error .valueError :=
  C10_invert_bad_color_raises "red" "181717" (by decide) (by decide)

/-! ## Format policy and target path (download, lines 212-222)

`download` lowercases the requested format, then overrides it with the output
path's extension whenever an output path is given, is not an existing
directory, and has a non-empty `pathlib` suffix; it then requires cairosvg and
Pillow for any non-`svg` format, and finally computes the target path
(`slug.format` inside a directory or the current directory, else the output
path itself). -/

/-- An output path argument: its text and whether it is an existing directory
(`Path.is_dir()`, a filesystem fact). -/
structure OutPath where
  path : String
  isDir : Bool
deriving DecidableEq, Repr

/-- `pathlib.PurePath.name`: the final path component. -/
def pathName (p : String) : Chars :=
  ((p.data.reverse.dropWhile (fun c => c = '/')).takeWhile (fun c => c ≠ '/')).reverse

/-- `pathlib.PurePath.suffix`: the extension of the final component, with its
dot, and empty when the last dot is leading or trailing. -/
def pathSuffix (p : String) : String :=
  let n := pathName p
  let revTail := n.reverse.takeWhile (fun c => c ≠ '.')
  if revTail.length + 1 < n.length ∧ revTail ≠ [] then ⟨'.' :: revTail.reverse⟩ else ""

/-- `str.lower()` (ASCII case folding, as the source's format strings need). -/
def pyLower (s : String) : String := ⟨s.data.map Char.toLower⟩

/-- `output.suffix.lower().lstrip(".")`: the format derived from an extension. -/
def extFormat (p : String) : String :=
  ⟨(pyLower (pathSuffix p)).data.dropWhile (fun c => c = '.')⟩

/-- The format-resolution step of `download` (lines 213-215). -/
def resolveFormat (fmt : String) (output : Option OutPath) : String :=
  match output with
  | none => pyLower fmt
  | some o =>
    if o.isDir = false ∧ pathSuffix o.path ≠ "" then extFormat o.path else pyLower fmt

/-- The formats with dedicated handling in the source (`svg` pass-through in
`download`; `png`, `ico`, `jpg`, `icns` branches of `convert_image`). -/
def recognizedFormats : List String := ["svg", "png", "ico", "jpg", "icns"]

/-- `filename = f"{slug}.{format}"` (line 221). -/
def downloadFilename (slug fmt : String) : String := slug ++ "." ++ fmt

/-- `target = output / filename if output and output.is_dir() else (output or
Path(filename))` (line 222). -/
def downloadTarget (filename : String) (output : Option OutPath) : String :=
  match output with
  | none => filename
  | some o => if o.isDir then o.path ++ "/" ++ filename else o.path

/-- The composition `download` uses to name its output artifact: resolve the
query, rename `slug` to the resolved record's slug (line 187), resolve the
format, and build the target path. -/
def downloadNameOf (query : String) (icons : List IconRecord) (fmt : String)
    (output : Option OutPath) : Option String :=
  (resolve_icon query icons).map fun r =>
    downloadTarget (downloadFilename r.slug (resolveFormat fmt output)) output

/-! ## Observable events of a `download` invocation, in program order -/

/-- Events of `download` up to the icon-asset fetch: the catalog network GET
(on a cache miss in `get_data`), the not-found exit, the capability-check
exit, and the icon-asset network GET. -/
inductive DlEv
  | fetchCatalog
  | fetchIcon
  | notFoundError
  | capabilityError
deriving DecidableEq, Repr

/-- `get_data()` (lines 72-89): network fetch exactly on a cache miss. -/
def getDataEvents (cacheHit : Bool) : List DlEv :=
  if cacheHit then [] else [DlEv.fetchCatalog]

/-- Event trace of `download` (lines 179-230) through its first icon-asset
request: catalog load, resolution exit, capability check, icon fetch. -/
def downloadEvents (cacheHit resolveOk hasCairo hasPillow : Bool) (fmt : String)
    (output : Option OutPath) : List DlEv :=
  getDataEvents cacheHit ++
    (if resolveOk = false then [DlEv.notFoundError]
     else if resolveFormat fmt output ≠ "svg" ∧ (hasCairo && hasPillow) = false then
       [DlEv.capabilityError]
     else [DlEv.fetchIcon])

/-! ## Claim theorems for the format policy and naming -/

/-- C2, counterexample: with output `icon.webp` (not a directory) and an
explicit `--format png`, the code uses `webp` — an extension with no dedicated
handling — whereas the claim says an unrecognized extension leaves the
explicitly requested `png` in force. -/
theorem C2_counterexample :
    resolveFormat "png" (some ⟨"icon.webp", false⟩) = "webp" ∧
    recognizedFormats.contains "webp" = false ∧ ("webp" : String) ≠ "png" := by
  refine ⟨by decide, by decide, by decide⟩

/-- C2, amended: the extension wins whenever an output path is given, is not
an existing directory and has a non-empty extension — whether or not the
extension is a recognized format; in every other case the explicitly requested
format (lowercased) is used. -/
theorem C2_any_extension_wins (o : OutPath) (fmt1 fmt2 fmt : String) :
    (o.isDir = false → pathSuffix o.path ≠ "" →
      resolveFormat fmt1 (some o) = resolveFormat fmt2 (some o) ∧
      resolveFormat fmt1 (some o) = extFormat o.path) ∧
    (o.isDir = true ∨ pathSuffix o.path = "" → resolveFormat fmt (some o) = pyLower fmt) ∧
    resolveFormat fmt none = pyLower fmt := by
  refine ⟨fun hdir hsuf => ?_, fun hother => ?_, rfl⟩
  · simp only [resolveFormat, if_pos (And.intro hdir hsuf)]
    constructor <;> first | rfl | trivial
  · rw [resolveFormat, if_neg]
    rintro ⟨h1, h2⟩
    rcases hother with h | h
    · rw [h] at h1; exact absurd h1 (by decide)
    · exact h2 h

/-- Witness for the amended C2: the unrecognized extension `.webp` overrides
both `png` and `svg` requests identically, and a directory output leaves the
requested format alone. -/
theorem C2_any_extension_wins_witness :
    (resolveFormat "png" (some ⟨"icon.webp", false⟩) =
      resolveFormat "svg" (some ⟨"icon.webp", false⟩) ∧
     resolveFormat "png" (some ⟨"icon.webp", false⟩) = extFormat "icon.webp") ∧
    resolveFormat "PNG" (some ⟨"outdir.d", true⟩) = pyLower "PNG" :=
  ⟨(C2_any_extension_wins ⟨"icon.webp", false⟩ "png" "svg" "x").1 rfl (by decide),
   (C2_any_extension_wins ⟨"outdir.d", true⟩ "x" "x" "PNG").2.1 (Or.inl rfl)⟩

/-- C3, counterexample: on a catalog-cache miss with a non-vector format and
missing rendering libraries, the capability error is reported only after the
catalog network fetch — a network fetch does precede it, contrary to the
claim. -/
theorem C3_counterexample :
    downloadEvents false true false false "png" none =
      [DlEv.fetchCatalog, DlEv.capabilityError] ∧
    (downloadEvents false true false false "png" none).head? = some DlEv.fetchCatalog := by
  refine ⟨by decide, by decide⟩

/-- C3, amended: with a non-vector chosen format and cairosvg or Pillow
missing, `download` exits with the capability error before the icon-asset
fetch is ever attempted; when the catalog is served from cache the error is
the only event, but a cache miss triggers the catalog fetch first. -/
theorem C3_capability_error_precedes_icon_fetch (cacheHit hasCairo hasPillow : Bool)
    (fmt : String) (output : Option OutPath)
    (hfmt : resolveFormat fmt output ≠ "svg")
    (hcap : (hasCairo && hasPillow) = false) :
    DlEv.capabilityError ∈ downloadEvents cacheHit true hasCairo hasPillow fmt output ∧
    DlEv.fetchIcon ∉ downloadEvents cacheHit true hasCairo hasPillow fmt output ∧
    (cacheHit = true →
      downloadEvents cacheHit true hasCairo hasPillow fmt output = [DlEv.capabilityError]) := by
  rw [downloadEvents]
  rw [if_neg (by decide : ¬(true = false)), if_pos ⟨hfmt, hcap⟩]
  cases cacheHit <;> simp [getDataEvents]

/-- Witness for the amended C3: `png` requested with both libraries absent and
a cached catalog: the capability error is the whole observable trace. -/
theorem C3_capability_error_precedes_icon_fetch_witness :
    DlEv.capabilityError ∈ downloadEvents true true false false "png" none ∧
    DlEv.fetchIcon ∉ downloadEvents true true false false "png" none ∧
    (true = true → downloadEvents true true false false "png" none = [DlEv.capabilityError]) :=
  C3_capability_error_precedes_icon_fetch true false false "png" none (by decide) rfl

/-- C9: when resolution succeeds only fuzzily (no exact slug match) and no
explicit file path is given (no output, or an output directory), the artifact
is named from the resolved record's slug — `<resolved slug>.<format>` — not
from the query string. -/
theorem C9_filename_uses_resolved_slug (query : String) (icons : List IconRecord)
    (fmt : String) (output : Option OutPath) (r : IconRecord)
    (hres : resolve_icon query icons = some r)
    (hfuzzy : icons.find? (fun i => i.slug == query) = none)
    (hdir : ∀ o ∈ output.toList, o.isDir = true) :
    downloadNameOf query icons fmt output =
      some (downloadTarget (r.slug ++ "." ++ pyLower fmt) output) := by
  rw [downloadNameOf, hres]
  have hfm : resolveFormat fmt output = pyLower fmt := by
    cases output with
    | none => rfl
    | some o =>
      have hod : o.isDir = true := hdir o (by simp)
      rw [resolveFormat, if_neg]
      rintro ⟨h1, _⟩
      rw [hod] at h1
      exact absurd h1 (by decide)
  rw [Option.map_some', downloadFilename, hfm]

/-- Witness for C9: the query `git` resolves fuzzily to `github` and, with no
output path, the file is named `github.svg`, not `git.svg`. -/
theorem C9_filename_uses_resolved_slug_witness :
    downloadNameOf "git" [⟨"GitHub", "github", "181717"⟩] "svg" none = some "github.svg" :=
  (C9_filename_uses_resolved_slug "git" [⟨"GitHub", "github", "181717"⟩] "svg" none
      ⟨"GitHub", "github", "181717"⟩ (by with_unfolding_all decide) (by decide)
      (by decide)).trans (by with_unfolding_all decide)

/-! ## `.icns` export staging (`convert_image`, lines 308-339)

The `icns` branch creates a temporary `icon.iconset` staging directory, writes
`icon_{s}x{s}.png` and `icon_{s}x{s}@2x.png` for each `s` in
`[16, 32, 128, 256, 512]`, invokes `iconutil` on the staged directory, and —
because the directory lives in a `with tempfile.TemporaryDirectory()` block —
removes the staging directory when the block exits, whether `iconutil`
succeeded or raised `CalledProcessError`. -/

/-- The fixed resolution ladder of the `icns` branch. -/
def icnsSizes : List Nat := [16, 32, 128, 256, 512]

/-- The staged file names, in the order the loop writes them. -/
def icnsStageNames : List String :=
  icnsSizes.flatMap fun s =>
    ["icon_" ++ toString s ++ "x" ++ toString s ++ ".png",
     "icon_" ++ toString s ++ "x" ++ toString s ++ "@2x.png"]

/-- Filesystem-visible events of the `icns` branch. -/
inductive IcnsEv
  | makeStagingDir
  | stage (name : String)
  | invokePackager
  | removeStagingDir
deriving DecidableEq, Repr

/-- Event trace of the `icns` branch: the staging writes, the `iconutil`
invocation, and the `TemporaryDirectory` cleanup, which runs for both exit
statuses of the packager. -/
def icnsTrace (packagerOk : Bool) : List IcnsEv :=
  IcnsEv.makeStagingDir :: (icnsStageNames.map IcnsEv.stage) ++
    [IcnsEv.invokePackager, IcnsEv.removeStagingDir]

/-- The `icns` export: its trace and whether it returns normally (`iconutil`
exit status zero) or propagates `CalledProcessError`. -/
def icnsExport (packagerOk : Bool) : List IcnsEv × Bool :=
  (icnsTrace packagerOk, packagerOk)

/-- Recognize staging events. -/
def isStage : IcnsEv → Bool
  | IcnsEv.stage _ => true
  | _ => false

/-- C7: for both packager outcomes, exactly the ten staged rasters (the five
resolutions at base and double density, all distinctly named) are written
before the packaging step is invoked, and the staging directory is removed as
the last action, so it no longer exists after the export returns. -/
theorem C7_icns_staging (packagerOk : Bool) :
    ((icnsExport packagerOk).1.takeWhile (fun e => e ≠ IcnsEv.invokePackager)).filter isStage =
      [IcnsEv.stage "icon_16x16.png", IcnsEv.stage "icon_16x16@2x.png",
       IcnsEv.stage "icon_32x32.png", IcnsEv.stage "icon_32x32@2x.png",
       IcnsEv.stage "icon_128x128.png", IcnsEv.stage "icon_128x128@2x.png",
       IcnsEv.stage "icon_256x256.png", IcnsEv.stage "icon_256x256@2x.png",
       IcnsEv.stage "icon_512x512.png", IcnsEv.stage "icon_512x512@2x.png"] ∧
    icnsStageNames.length = 10 ∧ icnsStageNames.Nodup ∧
    (icnsExport packagerOk).1.getLast? = some IcnsEv.removeStagingDir ∧
    (icnsExport packagerOk).2 = packagerOk := by
  cases packagerOk <;> exact ⟨by decide, by decide, by decide, by decide, rfl⟩

/-! ## The opacity edit (download, lines 232-242)

When `opacity < 1.0`, `download` checks `"opacity=" in svg_text`; if present it
runs `re.sub(r'opacity="[\d\.]+"', f'opacity="{opacity}"', svg_text)`, which
replaces every non-overlapping occurrence in the whole document, and otherwise
it runs `re.sub(r'<svg', f'<svg opacity="{opacity}"', svg_text)`, injecting
after every `<svg` token.  The models below scan left to right, exactly like
`re.sub`: at each position try the pattern; on a match emit the replacement
and continue after the matched text, otherwise copy one character.  Since the
character class `[\d\.]` excludes `"`, the greedy quantifier matches exactly
the maximal digit-or-dot run, which must be followed by `"`. -/

/-- Boolean starts-with on character lists. -/
def startsL : Chars → Chars → Bool
  | [], _ => true
  | _ :: _, [] => false
  | a :: as, b :: bs => a == b && startsL as bs

/-- Python's `in`: substring occurrence. -/
def hasSub (pat : Chars) : Chars → Bool
  | [] => pat.isEmpty
  | c :: rest => startsL pat (c :: rest) || hasSub pat rest

/-- The literal head of the replacement pattern, `opacity="`. -/
def litOp : Chars := "opacity=\"".data

/-- The literal of the containment test, `opacity=` (no quote). -/
def litOpIn : Chars := "opacity=".data

/-- The literal of the injection pattern, `<svg`. -/
def litSvg : Chars := "<svg".data

/-- The character class `[\d\.]`. -/
def isRunChar (c : Char) : Bool := c.isDigit || c == '.'

/-- The replacement text `opacity="<v>"`. -/
def repl1 (v : Chars) : Chars := litOp ++ v ++ ['"']

/-- The injection text `<svg opacity="<v>"`. -/
def repl2 (v : Chars) : Chars := "<svg opacity=\"".data ++ v ++ ['"']

/-- Try the regex `opacity="[\d\.]+"` against the part after `opacity="`:
the maximal `[\d\.]` run must be non-empty and followed by `"`; returns the
run and the rest after the closing quote. -/
def tryRun (r : Chars) : Option (Chars × Chars) :=
  match r.dropWhile isRunChar with
  | c :: rest' =>
    if c = '"' && !(r.takeWhile isRunChar).isEmpty then some (r.takeWhile isRunChar, rest')
    else none
  | [] => none

/-- Try the regex `opacity="[\d\.]+"` at the head of `l`. -/
def tryMatch1 (l : Chars) : Option (Chars × Chars) :=
  if startsL litOp l then tryRun (l.drop 9) else none

lemma startsL_iff (p : Chars) : ∀ l, startsL p l = true ↔ ∃ t, l = p ++ t := by
  induction p with
  | nil => intro l; simp [startsL]
  | cons a as ih =>
    intro l
    cases l with
    | nil =>
      simp only [startsL]
      constructor
      · intro h; exact absurd h (by decide)
      · rintro ⟨t, ht⟩; exact absurd ht (by simp)
    | cons b bs =>
      simp only [startsL, Bool.and_eq_true, beq_iff_eq, ih bs]
      constructor
      · rintro ⟨rfl, t, rfl⟩; exact ⟨t, rfl⟩
      · rintro ⟨t, ht⟩
        rcases List.cons_eq_cons.mp ht with ⟨rfl, rfl⟩
        exact ⟨rfl, t, rfl⟩

lemma takeWhile_all_append (p : Char → Bool) (l1 : Chars) (b : Char) (l2 : Chars)
    (hall : ∀ c ∈ l1, p c = true) (hb : p b = false) :
    (l1 ++ b :: l2).takeWhile p = l1 ∧ (l1 ++ b :: l2).dropWhile p = b :: l2 := by
  induction l1 with
  | nil => simp [List.takeWhile_cons, List.dropWhile_cons, hb]
  | cons a t ih =>
    have ha : p a = true := hall a (List.mem_cons_self a t)
    have := ih (fun c hc => hall c (List.mem_cons_of_mem a hc))
    simp [List.takeWhile_cons, List.dropWhile_cons, ha, this.1, this.2]

lemma mem_takeWhile_run (p : Char → Bool) : ∀ (l : Chars), ∀ c ∈ l.takeWhile p, p c = true := by
  intro l
  induction l with
  | nil => intro c hc; exact absurd hc (List.not_mem_nil c)
  | cons a t ih =>
    intro c hc
    rw [List.takeWhile_cons] at hc
    by_cases ha : p a = true
    · rw [if_pos ha] at hc
      rcases List.mem_cons.mp hc with rfl | hc
      · exact ha
      · exact ih c hc
    · rw [if_neg ha] at hc
      exact absurd hc (List.not_mem_nil c)

lemma tryRun_shape (r run rest' : Chars) (h : tryRun r = some (run, rest')) :
    r = run ++ '"' :: rest' ∧ run ≠ [] ∧ ∀ c ∈ run, isRunChar c = true := by
  rw [tryRun.eq_def] at h
  split at h
  case h_2 => exact absurd h (by simp)
  case h_1 c rest hd =>
    split at h
    case isFalse => exact absurd h (by simp)
    case isTrue hcond =>
      rcases h with ⟨⟩
      obtain ⟨hq, hne⟩ : c = '"' ∧ (r.takeWhile isRunChar).isEmpty = false := by
        simpa [Bool.and_eq_true] using hcond
      subst hq
      refine ⟨?_, ?_, mem_takeWhile_run isRunChar r⟩
      · conv_lhs => rw [← List.takeWhile_append_dropWhile (p := isRunChar) (l := r)]
        rw [hd]
      · intro hempty
        rw [hempty] at hne
        exact absurd hne (by decide)

lemma tryRun_of (run t : Chars) (hall : ∀ c ∈ run, isRunChar c = true) (hne : run ≠ []) :
    tryRun (run ++ '"' :: t) = some (run, t) := by
  obtain ⟨ht, hdrop⟩ := takeWhile_all_append isRunChar run '"' t hall (by decide)
  have hemp : run.isEmpty = false := by
    cases run with
    | nil => exact absurd rfl hne
    | cons _ _ => rfl
  simp only [tryRun.eq_def, hdrop, ht, hemp]
  simp

lemma tryMatch1_shape (l run rest' : Chars) (h : tryMatch1 l = some (run, rest')) :
    l = litOp ++ run ++ '"' :: rest' ∧ run ≠ [] ∧ ∀ c ∈ run, isRunChar c = true := by
  rw [tryMatch1] at h
  by_cases hs : startsL litOp l = true
  · rw [if_pos hs] at h
    obtain ⟨t, rfl⟩ := (startsL_iff litOp l).mp hs
    have hdrop : (litOp ++ t).drop 9 = t := List.drop_left' (by decide)
    rw [hdrop] at h
    obtain ⟨rfl, hne, hall⟩ := tryRun_shape t run rest' h
    exact ⟨by simp, hne, hall⟩
  · rw [if_neg hs] at h
    exact absurd h (by simp)

lemma tryMatch1_of (run t : Chars) (hall : ∀ c ∈ run, isRunChar c = true) (hne : run ≠ []) :
    tryMatch1 (litOp ++ run ++ '"' :: t) = some (run, t) := by
  have hs : startsL litOp (litOp ++ (run ++ '"' :: t)) = true :=
    (startsL_iff litOp _).mpr ⟨run ++ '"' :: t, rfl⟩
  rw [tryMatch1, List.append_assoc, if_pos hs, List.drop_left' (by decide)]
  exact tryRun_of run t hall hne

/-- `tryMatch1` only fires on an `o`. -/
lemma tryMatch1_none_of_head (c : Char) (l : Chars) (hc : c ≠ 'o') :
    tryMatch1 (c :: l) = none := by
  rw [tryMatch1, if_neg]
  intro hs
  obtain ⟨t, ht⟩ := (startsL_iff litOp (c :: l)).mp hs
  have : c = 'o' := by
    have := congrArg (fun x => x.head?) ht
    simpa [litOp] using this
  exact hc this

/-- `re.sub(r'opacity="[\d\.]+"', 'opacity="<v>"', ·)` as a fuel-indexed
scan (structurally recursive, hence executable): at each position try the
pattern; on a match emit the replacement and continue after the matched text,
else copy one character.  Each step consumes at least one source character, so
fuel equal to the input length (as `sub1` passes) is never exhausted. -/
def sub1F (v : Chars) : Nat → Chars → Chars
  | _, [] => []
  | 0, l => l
  | fuel + 1, c :: rest =>
    match tryMatch1 (c :: rest) with
    | some (_, rest') => repl1 v ++ sub1F v fuel rest'
    | none => c :: sub1F v fuel rest

/-- `re.sub(r'opacity="[\d\.]+"', 'opacity="<v>"', ·)`: left-to-right,
non-overlapping replacement of every match. -/
def sub1 (v : Chars) (l : Chars) : Chars := sub1F v l.length l

/-- `re.sub(r'<svg', '<svg opacity="<v>"', ·)` as a fuel-indexed scan; the
replacement is emitted but scanning resumes after the matched source text, so
the injected text is not rescanned, exactly like `re.sub`. -/
def sub2F (v : Chars) : Nat → Chars → Chars
  | _, [] => []
  | 0, l => l
  | fuel + 1, c :: rest =>
    if startsL litSvg (c :: rest) then repl2 v ++ sub2F v fuel (rest.drop 3)
    else c :: sub2F v fuel rest

/-- `re.sub(r'<svg', '<svg opacity="<v>"', ·)`: left-to-right, non-overlapping
injection after every `<svg` token. -/
def sub2 (v : Chars) (l : Chars) : Chars := sub2F v l.length l

/-- The opacity edit of `download` (lines 233-242): `lt1` is the test
`opacity < 1.0` and `v` is the formatted value `f"{opacity}"`. -/
def applyOpacity (lt1 : Bool) (v : String) (doc : String) : String :=
  if lt1 then
    if hasSub litOpIn doc.data then ⟨sub1 v.data doc.data⟩ else ⟨sub2 v.data doc.data⟩
  else doc

/-! ### Scanner equations: the fuel never runs out -/

lemma sub1F_fuel_irrel (v : Chars) :
    ∀ (f1 f2 : Nat) (l : Chars), l.length ≤ f1 → l.length ≤ f2 →
      sub1F v f1 l = sub1F v f2 l := by
  intro f1
  induction f1 with
  | zero =>
    intro f2 l h1 _
    have hl : l = [] := List.eq_nil_of_length_eq_zero (Nat.le_zero.mp h1)
    subst hl
    cases f2 <;> rfl
  | succ f1 ih =>
    intro f2 l h1 h2
    cases l with
    | nil => cases f2 <;> rfl
    | cons c rest =>
      cases f2 with
      | zero => simp at h2
      | succ f2 =>
        simp only [List.length_cons] at h1 h2
        cases hm : tryMatch1 (c :: rest) with
        | some p =>
          obtain ⟨run, rest'⟩ := p
          obtain ⟨hshape, _, _⟩ := tryMatch1_shape _ _ _ hm
          have hlen := congrArg List.length hshape
          have h9 : litOp.length = 9 := by decide
          simp only [List.length_append, List.length_cons, h9] at hlen
          simp only [sub1F, hm]
          rw [ih f2 rest' (by omega) (by omega)]
        | none =>
          simp only [sub1F, hm]
          rw [ih f2 rest (by omega) (by omega)]

lemma tryMatch1_nil : tryMatch1 [] = none := rfl

lemma sub1_nil (v : Chars) : sub1 v [] = [] := rfl

lemma sub1_match (v l run rest' : Chars) (h : tryMatch1 l = some (run, rest')) :
    sub1 v l = repl1 v ++ sub1 v rest' := by
  cases l with
  | nil => rw [tryMatch1_nil] at h; exact absurd h (by simp)
  | cons c rest =>
    obtain ⟨hshape, _, _⟩ := tryMatch1_shape _ _ _ h
    have hlen := congrArg List.length hshape
    have h9 : litOp.length = 9 := by decide
    simp only [List.length_append, List.length_cons, h9] at hlen
    simp only [sub1, List.length_cons, sub1F, h]
    congr 1
    exact sub1F_fuel_irrel v rest.length rest'.length rest' (by omega) le_rfl

lemma sub1_nomatch (v : Chars) (c : Char) (rest : Chars) (h : tryMatch1 (c :: rest) = none) :
    sub1 v (c :: rest) = c :: sub1 v rest := by
  simp only [sub1, List.length_cons, sub1F, h]

lemma sub2F_fuel_irrel (v : Chars) :
    ∀ (f1 f2 : Nat) (l : Chars), l.length ≤ f1 → l.length ≤ f2 →
      sub2F v f1 l = sub2F v f2 l := by
  intro f1
  induction f1 with
  | zero =>
    intro f2 l h1 _
    have hl : l = [] := List.eq_nil_of_length_eq_zero (Nat.le_zero.mp h1)
    subst hl
    cases f2 <;> rfl
  | succ f1 ih =>
    intro f2 l h1 h2
    cases l with
    | nil => cases f2 <;> rfl
    | cons c rest =>
      cases f2 with
      | zero => simp at h2
      | succ f2 =>
        simp only [List.length_cons] at h1 h2
        have hd := List.length_drop 3 rest
        by_cases hs : startsL litSvg (c :: rest) = true
        · simp only [sub2F, hs, if_true]
          rw [ih f2 (rest.drop 3) (by omega) (by omega)]
        · simp only [sub2F, hs, if_false, Bool.false_eq_true]
          rw [ih f2 rest (by omega) (by omega)]

lemma sub2_nil (v : Chars) : sub2 v [] = [] := rfl

lemma sub2_svg (v : Chars) (c : Char) (rest : Chars) (h : startsL litSvg (c :: rest) = true) :
    sub2 v (c :: rest) = repl2 v ++ sub2 v (rest.drop 3) := by
  have hd := List.length_drop 3 rest
  simp only [sub2, List.length_cons, sub2F, h, if_true]
  congr 1
  exact sub2F_fuel_irrel v rest.length (rest.drop 3).length (rest.drop 3) (by omega) le_rfl

lemma sub2_nosvg (v : Chars) (c : Char) (rest : Chars) (h : startsL litSvg (c :: rest) = false) :
    sub2 v (c :: rest) = c :: sub2 v rest := by
  simp only [sub2, List.length_cons, sub2F, h, if_false, Bool.false_eq_true]

/-! ### Substring and prefix helpers -/

lemma startsL_self_append (p t : Chars) : startsL p (p ++ t) = true :=
  (startsL_iff p (p ++ t)).mpr ⟨t, rfl⟩

lemma startsL_append_right (p l b : Chars) (h : startsL p l = true) :
    startsL p (l ++ b) = true := by
  obtain ⟨t, rfl⟩ := (startsL_iff p l).mp h
  rw [List.append_assoc]
  exact startsL_self_append p (t ++ b)

lemma hasSub_cons (pat : Chars) (c : Char) (l : Chars) :
    hasSub pat (c :: l) = (startsL pat (c :: l) || hasSub pat l) := rfl

lemma hasSub_of_startsL (pat l : Chars) (h : startsL pat l = true) : hasSub pat l = true := by
  cases l with
  | nil =>
    cases pat with
    | nil => rfl
    | cons a t => exact absurd h (by simp [startsL])
  | cons c rest => rw [hasSub_cons, h, Bool.true_or]

lemma hasSub_tail (pat : Chars) (c : Char) (l : Chars) (h : hasSub pat l = true) :
    hasSub pat (c :: l) = true := by
  rw [hasSub_cons, h, Bool.or_true]

lemma hasSub_cons_false (pat : Chars) (c : Char) (l : Chars) (h : hasSub pat (c :: l) = false) :
    startsL pat (c :: l) = false ∧ hasSub pat l = false := by
  rw [hasSub_cons] at h
  exact ⟨(Bool.or_eq_false_iff.mp h).1, (Bool.or_eq_false_iff.mp h).2⟩

lemma hasSub_of_drop (pat : Chars) : ∀ (l : Chars) (k : Nat),
    hasSub pat (l.drop k) = true → hasSub pat l = true := by
  intro l
  induction l with
  | nil => intro k h; simpa using h
  | cons c t ih =>
    intro k h
    cases k with
    | zero => exact h
    | succ k => exact hasSub_tail pat c t (ih k h)

/-- Characters of the `[\d\.]` class are neither `o` nor `<`. -/
lemma runChar_ne (a : Char) (h : isRunChar a = true) : a ≠ 'o' ∧ a ≠ '<' := by
  constructor <;> · intro hc; rw [hc] at h; exact absurd h (by decide)

/-! ### Idempotence of the replacement scan -/

lemma repl1_cons (v X : Chars) :
    repl1 v ++ X = 'o' :: ("pacity=\"".data ++ ((v ++ ['"']) ++ X)) := by
  have hlit : litOp = 'o' :: "pacity=\"".data := by decide
  rw [repl1, hlit]
  simp [List.append_assoc]

/-- Characters copied unchanged by the scan can be peeled off the output:
if the output starts with a block of non-`o` characters, so does the input. -/
lemma sub1_copy_decomp (v : Chars) : ∀ (w : Chars), (∀ a ∈ w, a ≠ 'o') →
    ∀ (t z : Chars), sub1 v t = w ++ z → ∃ t', t = w ++ t' ∧ sub1 v t' = z := by
  intro w
  induction w with
  | nil => intro _ t z h; exact ⟨t, rfl, by simpa using h⟩
  | cons a w' ih =>
    intro hw t z h
    cases t with
    | nil => rw [sub1_nil] at h; exact absurd h (by simp)
    | cons c rest =>
      cases hm : tryMatch1 (c :: rest) with
      | some p =>
        obtain ⟨run, rest'⟩ := p
        rw [sub1_match v _ run rest' hm, repl1_cons] at h
        have ha : a = 'o' := by
          have hh := congrArg List.head? h
          simpa using hh.symm
        exact absurd ha (hw a (List.mem_cons_self a w'))
      | none =>
        rw [sub1_nomatch v c rest hm, List.cons_append] at h
        obtain ⟨hca, htail⟩ := List.cons_eq_cons.mp h
        subst hca
        obtain ⟨t', rfl, hs⟩ := ih (fun x hx => hw x (List.mem_cons_of_mem _ hx)) rest z htail
        exact ⟨t', by rw [List.cons_append], hs⟩

/-- No new match appears at a position the scan copied: a second scan finds
nothing at a position where the first found nothing. -/
lemma tryMatch1_none_sub1 (v : Chars) (c : Char) (t : Chars)
    (h : tryMatch1 (c :: t) = none) : tryMatch1 (c :: sub1 v t) = none := by
  cases hm : tryMatch1 (c :: sub1 v t) with
  | none => rfl
  | some p =>
    exfalso
    obtain ⟨run, z⟩ := p
    obtain ⟨hshape, hne, hall⟩ := tryMatch1_shape _ _ _ hm
    have hlit : litOp = 'o' :: "pacity=\"".data := by decide
    rw [hlit, List.cons_append, List.cons_append] at hshape
    obtain ⟨hc, htail⟩ := List.cons_eq_cons.mp hshape
    subst hc
    have hw : ∀ a ∈ "pacity=\"".data ++ run ++ ['"'], a ≠ 'o' := by
      intro a ha
      rcases List.mem_append.mp ha with ha' | ha'
      · rcases List.mem_append.mp ha' with ha'' | ha''
        · exact (by decide : ∀ x ∈ "pacity=\"".data, x ≠ 'o') a ha''
        · exact (runChar_ne a (hall a ha'')).1
      · rcases List.mem_singleton.mp ha' with rfl; decide
    have htail' : sub1 v t = ("pacity=\"".data ++ run ++ ['"']) ++ z := by
      rw [htail]; simp [List.append_assoc]
    obtain ⟨t', rfl, _⟩ := sub1_copy_decomp v _ hw t z htail'
    have hsome : tryMatch1 ('o' :: (("pacity=\"".data ++ run ++ ['"']) ++ t')) = some (run, t') := by
      have heq : 'o' :: (("pacity=\"".data ++ run ++ ['"']) ++ t') = litOp ++ run ++ '"' :: t' := by
        rw [hlit]; simp [List.append_assoc]
      rw [heq]
      exact tryMatch1_of run t' hall hne
    rw [h] at hsome
    exact absurd hsome (by simp)

/-- The replacement text itself matches and maps to itself, so scanning an
output that begins with it just reproduces it. -/
lemma sub1_repl1 (v : Chars) (hall : ∀ c ∈ v, isRunChar c = true) (hne : v ≠ []) (t : Chars) :
    sub1 v (repl1 v ++ t) = repl1 v ++ sub1 v t := by
  have heq : repl1 v ++ t = litOp ++ v ++ '"' :: t := by simp [repl1, List.append_assoc]
  rw [heq]
  exact sub1_match v _ v t (tryMatch1_of v t hall hne)

/-- The replacement scan is idempotent for a decimal-shaped value. -/
lemma sub1_idem (v : Chars) (hall : ∀ c ∈ v, isRunChar c = true) (hne : v ≠ []) :
    ∀ (t : Chars), sub1 v (sub1 v t) = sub1 v t := by
  suffices H : ∀ (n : Nat) (t : Chars), t.length ≤ n → sub1 v (sub1 v t) = sub1 v t by
    intro t; exact H t.length t le_rfl
  intro n
  induction n with
  | zero =>
    intro t ht
    have hnil : t = [] := List.eq_nil_of_length_eq_zero (Nat.le_zero.mp ht)
    subst hnil
    simp [sub1_nil]
  | succ n ih =>
    intro t ht
    cases t with
    | nil => simp [sub1_nil]
    | cons c rest =>
      simp only [List.length_cons] at ht
      cases hm : tryMatch1 (c :: rest) with
      | some p =>
        obtain ⟨run, rest'⟩ := p
        obtain ⟨hshape, _, _⟩ := tryMatch1_shape _ _ _ hm
        have hlen := congrArg List.length hshape
        have h9 : litOp.length = 9 := by decide
        simp only [List.length_append, List.length_cons, h9] at hlen
        rw [sub1_match v _ run rest' hm, sub1_repl1 v hall hne, ih rest' (by omega)]
      | none =>
        rw [sub1_nomatch v c rest hm,
          sub1_nomatch v c (sub1 v rest) (tryMatch1_none_sub1 v c rest hm),
          ih rest (by omega)]

/-! ### The containment test `"opacity=" in text` across the two scans -/

lemma startsL_sub1 (v : Chars) : ∀ (w : Chars), (∀ a ∈ w, a ≠ 'o') →
    ∀ t, startsL w t = true → startsL w (sub1 v t) = true := by
  intro w
  induction w with
  | nil =>
    intro _ t _
    cases sub1 v t <;> rfl
  | cons a w' ih =>
    intro hw t h
    obtain ⟨tt, rfl⟩ := (startsL_iff _ _).mp h
    have ha : a ≠ 'o' := hw a (List.mem_cons_self a w')
    rw [List.cons_append, sub1_nomatch v a _ (tryMatch1_none_of_head a _ ha)]
    show (a == a && startsL w' (sub1 v (w' ++ tt))) = true
    rw [beq_self_eq_true, Bool.true_and]
    exact ih (fun x hx => hw x (List.mem_cons_of_mem a hx)) (w' ++ tt) (startsL_self_append w' tt)

lemma startsL_litOpIn_repl1 (v X : Chars) : startsL litOpIn (repl1 v ++ X) = true := by
  have hsplit : repl1 v ++ X = litOpIn ++ ('"' :: (v ++ ['"'] ++ X)) := by
    have : litOp = litOpIn ++ ['"'] := by decide
    rw [repl1, this]
    simp [List.append_assoc]
  rw [hsplit]
  exact startsL_self_append _ _

/-- If the document contained `opacity=`, so does the scan's output. -/
lemma hasSub_litOpIn_sub1 (v : Chars) :
    ∀ (n : Nat) (d : Chars), d.length ≤ n → hasSub litOpIn d = true →
      hasSub litOpIn (sub1 v d) = true := by
  intro n
  induction n with
  | zero =>
    intro d hd h
    have hnil : d = [] := List.eq_nil_of_length_eq_zero (Nat.le_zero.mp hd)
    subst hnil
    exact absurd h (by decide)
  | succ n ih =>
    intro d hd h
    cases d with
    | nil => exact absurd h (by decide)
    | cons c rest =>
      simp only [List.length_cons] at hd
      cases hm : tryMatch1 (c :: rest) with
      | some p =>
        obtain ⟨run, rest'⟩ := p
        rw [sub1_match v _ run rest' hm]
        exact hasSub_of_startsL _ _ (startsL_litOpIn_repl1 v (sub1 v rest'))
      | none =>
        rw [sub1_nomatch v c rest hm]
        rw [hasSub_cons] at h
        rcases Bool.or_eq_true_iff.mp h with hstart | htl
        · obtain ⟨tt, heq⟩ := (startsL_iff _ _).mp hstart
          have hlit8 : litOpIn = 'o' :: "pacity=".data := by decide
          rw [hlit8, List.cons_append] at heq
          obtain ⟨rfl, hrest⟩ := List.cons_eq_cons.mp heq
          subst hrest
          apply hasSub_of_startsL
          rw [hlit8]
          show (('o' : Char) == 'o' && startsL "pacity=".data (sub1 v ("pacity=".data ++ tt))) = true
          rw [beq_self_eq_true, Bool.true_and]
          exact startsL_sub1 v "pacity=".data (by decide) _ (startsL_self_append _ _)
        · exact hasSub_tail _ _ _ (ih rest (by omega) htl)

/-! ### The injection scan -/

/-- Without a `<svg` token the injection changes nothing. -/
lemma sub2_id_of_no_svg (v : Chars) : ∀ (d : Chars), hasSub litSvg d = false →
    sub2 v d = d := by
  intro d
  induction d with
  | nil => intro _; rfl
  | cons c rest ih =>
    intro h
    obtain ⟨hs, ht⟩ := hasSub_cons_false _ _ _ h
    rw [sub2_nosvg v c rest hs, ih ht]

lemma repl2_split (v : Chars) : repl2 v = "<svg ".data ++ (repl1 v) := by
  have : "<svg opacity=\"".data = "<svg ".data ++ litOp := by decide
  rw [repl2, repl1, this]
  simp [List.append_assoc]

/-- After an injection the output does contain `opacity=`. -/
lemma hasSub_litOpIn_sub2 (v : Chars) : ∀ (n : Nat) (d : Chars), d.length ≤ n →
    hasSub litSvg d = true → hasSub litOpIn (sub2 v d) = true := by
  intro n
  induction n with
  | zero =>
    intro d hd h
    have hnil : d = [] := List.eq_nil_of_length_eq_zero (Nat.le_zero.mp hd)
    subst hnil
    exact absurd h (by decide)
  | succ n ih =>
    intro d hd h
    cases d with
    | nil => exact absurd h (by decide)
    | cons c rest =>
      simp only [List.length_cons] at hd
      by_cases hs : startsL litSvg (c :: rest) = true
      · rw [sub2_svg v c rest hs]
        have : repl2 v ++ sub2 v (rest.drop 3) =
            '<' :: 's' :: 'v' :: 'g' :: ' ' :: (repl1 v ++ sub2 v (rest.drop 3)) := by
          rw [repl2_split]
          rfl
        rw [this]
        refine hasSub_tail _ _ _ (hasSub_tail _ _ _ (hasSub_tail _ _ _ (hasSub_tail _ _ _
          (hasSub_tail _ _ _ ?_))))
        exact hasSub_of_startsL _ _ (startsL_litOpIn_repl1 v _)
      · have hs' : startsL litSvg (c :: rest) = false := by
          cases hss : startsL litSvg (c :: rest)
          · rfl
          · exact absurd hss hs
        rw [sub2_nosvg v c rest hs']
        rw [hasSub_cons, hs', Bool.false_or] at h
        exact hasSub_tail _ _ _ (ih rest (by omega) h)

/-- Characters copied unchanged by the injection scan can be peeled off the
output (blocks start with `<`). -/
lemma sub2_copy_decomp (v : Chars) : ∀ (w : Chars), (∀ a ∈ w, a ≠ '<') →
    ∀ (t z : Chars), sub2 v t = w ++ z → ∃ t', t = w ++ t' := by
  intro w
  induction w with
  | nil => intro _ t z _; exact ⟨t, rfl⟩
  | cons a w' ih =>
    intro hw t z h
    cases t with
    | nil => rw [sub2_nil] at h; exact absurd h (by simp)
    | cons c rest =>
      by_cases hs : startsL litSvg (c :: rest) = true
      · exfalso
        rw [sub2_svg v c rest hs, repl2_split] at h
        have ha : a = '<' := by
          have hh := congrArg List.head? h
          simpa using hh.symm
        exact absurd ha (hw a (List.mem_cons_self a w'))
      · have hs' : startsL litSvg (c :: rest) = false := by
          cases hss : startsL litSvg (c :: rest)
          · rfl
          · exact absurd hss hs
        rw [sub2_nosvg v c rest hs', List.cons_append] at h
        obtain ⟨hca, htail⟩ := List.cons_eq_cons.mp h
        subst hca
        obtain ⟨t', rfl⟩ := ih (fun x hx => hw x (List.mem_cons_of_mem _ hx)) rest z htail
        exact ⟨t', by rw [List.cons_append]⟩

/-- At a position of the injection output where the source document had no
`opacity=`, the replacement pattern cannot match. -/
lemma tryMatch1_none_sub2 (v : Chars) (c : Char) (t : Chars)
    (h : hasSub litOpIn (c :: t) = false) : tryMatch1 (c :: sub2 v t) = none := by
  cases hm : tryMatch1 (c :: sub2 v t) with
  | none => rfl
  | some p =>
    exfalso
    obtain ⟨run, z⟩ := p
    obtain ⟨hshape, hne, hall⟩ := tryMatch1_shape _ _ _ hm
    have hlit : litOp = 'o' :: "pacity=\"".data := by decide
    rw [hlit, List.cons_append, List.cons_append] at hshape
    obtain ⟨hc, htail⟩ := List.cons_eq_cons.mp hshape
    subst hc
    have hw : ∀ a ∈ "pacity=\"".data ++ run ++ ['"'], a ≠ '<' := by
      intro a ha
      rcases List.mem_append.mp ha with ha' | ha'
      · rcases List.mem_append.mp ha' with ha'' | ha''
        · exact (by decide : ∀ x ∈ "pacity=\"".data, x ≠ '<') a ha''
        · exact (runChar_ne a (hall a ha'')).2
      · rcases List.mem_singleton.mp ha' with rfl; decide
    have htail' : sub2 v t = ("pacity=\"".data ++ run ++ ['"']) ++ z := by
      rw [htail]; simp [List.append_assoc]
    obtain ⟨t', rfl⟩ := sub2_copy_decomp v _ hw t z htail'
    have hstart : startsL litOpIn ('o' :: (("pacity=\"".data ++ run ++ ['"']) ++ t')) = true := by
      have hlit8 : litOpIn = 'o' :: "pacity=".data := by decide
      have heq : 'o' :: (("pacity=\"".data ++ run ++ ['"']) ++ t') =
          litOpIn ++ ('"' :: (run ++ ['"'] ++ t')) := by
        rw [hlit8]
        have : "pacity=\"".data = "pacity=".data ++ ['"'] := by decide
        rw [this]
        simp [List.append_assoc]
      rw [heq]
      exact startsL_self_append _ _
    have := hasSub_of_startsL _ _ hstart
    rw [h] at this
    exact absurd this (by simp)

/-- Scanning an injection block reproduces it and continues behind it. -/
lemma sub1_repl2 (v : Chars) (hall : ∀ c ∈ v, isRunChar c = true) (hne : v ≠ []) (t : Chars) :
    sub1 v (repl2 v ++ t) = repl2 v ++ sub1 v t := by
  rw [repl2_split]
  have step : ∀ (a : Char) (l : Chars), a ≠ 'o' → sub1 v (a :: l) = a :: sub1 v l :=
    fun a l ha => sub1_nomatch v a l (tryMatch1_none_of_head a l ha)
  show sub1 v ('<' :: ('s' :: ('v' :: ('g' :: (' ' :: (repl1 v ++ t)))))) = _
  rw [step '<' _ (by decide), step 's' _ (by decide), step 'v' _ (by decide),
    step 'g' _ (by decide), step ' ' _ (by decide), sub1_repl1 v hall hne]
  rfl

/-- On a document with no `opacity=`, the replacement scan leaves the
injection's output unchanged: the only matches are the injected attributes,
which map to themselves. -/
lemma sub1_sub2_id (v : Chars) (hall : ∀ c ∈ v, isRunChar c = true) (hne : v ≠ []) :
    ∀ (n : Nat) (d : Chars), d.length ≤ n → hasSub litOpIn d = false →
      sub1 v (sub2 v d) = sub2 v d := by
  intro n
  induction n with
  | zero =>
    intro d hd _
    have hnil : d = [] := List.eq_nil_of_length_eq_zero (Nat.le_zero.mp hd)
    subst hnil
    rfl
  | succ n ih =>
    intro d hd h
    cases d with
    | nil => rfl
    | cons c rest =>
      simp only [List.length_cons] at hd
      obtain ⟨hs8, ht8⟩ := hasSub_cons_false _ _ _ h
      by_cases hs : startsL litSvg (c :: rest) = true
      · rw [sub2_svg v c rest hs, sub1_repl2 v hall hne]
        have hdrop : hasSub litOpIn (rest.drop 3) = false := by
          cases hdd : hasSub litOpIn (rest.drop 3)
          · rfl
          · exact absurd (hasSub_tail _ c _ (hasSub_of_drop _ rest 3 hdd)) (by rw [h]; simp)
        rw [ih (rest.drop 3) (by have := List.length_drop 3 rest; omega) hdrop]
      · have hs' : startsL litSvg (c :: rest) = false := by
          cases hss : startsL litSvg (c :: rest)
          · rfl
          · exact absurd hss hs
        rw [sub2_nosvg v c rest hs',
          sub1_nomatch v c (sub2 v rest) (tryMatch1_none_sub2 v c rest h),
          ih rest (by omega) ht8]

/-- The shape of Python's decimal rendering of an opacity value such as `0.3`:
non-empty, digits and dots only (the shape the regex `[\d\.]+` can match). -/
def decimalValue (v : String) : Prop :=
  v.data ≠ [] ∧ ∀ c ∈ v.data, isRunChar c = true

/-! ## Claim theorems for the opacity edit -/

/-- C1, code-bug evaluation: on a document whose only opacity attribute sits on
a nested `<g>` element, the edit rewrites that nested attribute to the new
value and leaves the root `<svg>` element without any opacity attribute —
against the code's own comment (`# Inject opacity into the root svg tag`) and
the claim. -/
theorem C1_nested_opacity_rewritten :
    applyOpacity true "0.3" "<svg><g opacity=\"0.5\"/></svg>" =
      "<svg><g opacity=\"0.3\"/></svg>" ∧
    hasSub "opacity=\"0.5\"".data ("<svg><g opacity=\"0.3\"/></svg>").data = false ∧
    startsL "<svg opacity=".data ("<svg><g opacity=\"0.3\"/></svg>").data = false := by
  refine ⟨by decide, by decide, by decide⟩

/-- C8: applying the opacity edit twice with the same value equals applying it
once, for every document; `lt1` models the test `opacity < 1.0` and `v` the
decimal rendering `f"{opacity}"` of the value. -/
theorem C8_apply_opacity_idempotent (lt1 : Bool) (v doc : String) (hv : decimalValue v) :
    applyOpacity lt1 v (applyOpacity lt1 v doc) = applyOpacity lt1 v doc := by
  obtain ⟨hne, hall⟩ := hv
  cases lt1 with
  | false => rfl
  | true =>
    by_cases h8 : hasSub litOpIn doc.data = true
    · have h1 : applyOpacity true v doc = ⟨sub1 v.data doc.data⟩ := by
        rw [applyOpacity, if_pos rfl, if_pos h8]
      have h8' : hasSub litOpIn (sub1 v.data doc.data) = true :=
        hasSub_litOpIn_sub1 v.data doc.data.length doc.data le_rfl h8
      rw [h1, applyOpacity, if_pos rfl, if_pos h8']
      exact congrArg String.mk (sub1_idem v.data hall hne doc.data)
    · have h8f : hasSub litOpIn doc.data = false := by
        cases hh : hasSub litOpIn doc.data
        · rfl
        · exact absurd hh h8
      have h1 : applyOpacity true v doc = ⟨sub2 v.data doc.data⟩ := by
        rw [applyOpacity, if_pos rfl, if_neg h8]
      by_cases hsvg : hasSub litSvg doc.data = true
      · have h8' : hasSub litOpIn (sub2 v.data doc.data) = true :=
          hasSub_litOpIn_sub2 v.data doc.data.length doc.data le_rfl hsvg
        rw [h1, applyOpacity, if_pos rfl, if_pos h8']
        exact congrArg String.mk
          (sub1_sub2_id v.data hall hne doc.data.length doc.data le_rfl h8f)
      · have hsvgf : hasSub litSvg doc.data = false := by
          cases hh : hasSub litSvg doc.data
          · rfl
          · exact absurd hh hsvg
        have hid : sub2 v.data doc.data = doc.data := sub2_id_of_no_svg v.data doc.data hsvgf
        have h1' : applyOpacity true v doc = doc := by
          rw [h1, hid]
        rw [h1']
        exact h1'

/-- Witness for C8: a second application of `opacity 0.3` to a document that
already went through the edit changes nothing. -/
theorem C8_apply_opacity_idempotent_witness :
    applyOpacity true "0.3"
        (applyOpacity true "0.3" "<svg viewBox=\"0 0 24 24\"><path d=\"M12 0\"/></svg>") =
      applyOpacity true "0.3" "<svg viewBox=\"0 0 24 24\"><path d=\"M12 0\"/></svg>" :=
  C8_apply_opacity_idempotent true "0.3" "<svg viewBox=\"0 0 24 24\"><path d=\"M12 0\"/></svg>"
    (by constructor <;> decide)

end SimpleIcons

